import Mathlib

/-!
# Verification of the streaming agent client (`src/webui/mcp-integration.js`)

This file shallowly embeds the browser-side `MCPIntegration` class and proves
properties of its behaviour.  External runtime primitives (the `fetch`
transport, `TextDecoder`, `JSON.parse`, `Math.random`) are collaborators that
are out of scope per the spec; they appear as parameters or as abstract
outcome values.  All repository logic (connection flag handling, the stream
line-buffering loop, the event `switch`, callback registration and dispatch,
session teardown) is translated directly from the source.
-/

namespace MCP

/-- Model of the JavaScript values produced by `JSON.parse`: enough structure
for objects with string-keyed fields, which is all the event `switch`
inspects.  Arrays are omitted because no code path distinguishes them from
any other non-object value. -/
inductive JVal where
  | null
  | bool (b : Bool)
  | num (n : Int)
  | str (s : String)
  | objNil
  | objCons (key : String) (val : JVal) (rest : JVal)
deriving DecidableEq

/-- An object literal `{k₁: v₁, …}` as nested `objCons` cells ending in
`objNil`. -/
def jobj : List (String × JVal) → JVal
  | [] => .objNil
  | (k, v) :: rest => .objCons k v (jobj rest)

/-- JavaScript property access `v[k]`: a field lookup on an object, and
`undefined` (modelled as `none`) on anything else. -/
def getProp : JVal → String → Option JVal
  | .objCons k v rest, key => if k = key then some v else getProp rest key
  | _, _ => none

/-- The notifications delivered to observers through `_notifyCallbacks`
(`{type:'update'|'tool_call'|'tool_result'|'final'|'error', ...}`).  Field
values are `Option JVal` because the source copies possibly-`undefined`
properties of the parsed event. -/
inductive Notification where
  | update (content : Option JVal)
  | tool_call (tool : Option JVal) (arguments : Option JVal)
  | tool_result (result : Option JVal)
  | final (content : Option JVal) (toolCalls : List (Option JVal × Option JVal))
  | error (err : Option JVal)
deriving DecidableEq

/-- The mutable state of one `sendMessage` exchange inside `processStream`:
`receivedText` (the partial-line buffer), the accumulated `toolCalls` list,
and the ordered trace of notifications delivered so far via
`_notifyCallbacks`. -/
structure ExchangeState where
  buffer : List Char
  toolCalls : List (Option JVal × Option JVal)
  notifications : List Notification
deriving DecidableEq

/-- `let receivedText = ''; let toolCalls = [];` with no notification yet. -/
def initExchange : ExchangeState := ⟨[], [], []⟩

/-- `!line.trim()`: true when the line is all whitespace (so the source's
`continue` fires). -/
def isBlank (line : List Char) : Bool :=
  line.all fun c => c = ' ' || c = '\t' || c = '\n' || c = '\r' || c = '\x0b' || c = '\x0c'

/-- The body of the `for (const line of lines)` loop: skip blank lines, parse
the line (the parameter `p` stands for `JSON.parse` plus its exception as
`none`; a parse failure is logged and skipped), then the
`switch (event.type)` dispatch.  A non-string or missing `type`, or an
unrecognized tag, matches no `case` and the line is ignored. -/
def handleLine (p : List Char → Option JVal) (st : ExchangeState) (line : List Char) :
    ExchangeState :=
  if isBlank line then st
  else
    match p line with
    | none => st
    | some ev =>
      match getProp ev "type" with
      | some (JVal.str t) =>
        if t = "content" then
          { st with notifications := st.notifications ++ [.update (getProp ev "content")] }
        else if t = "tool_call" then
          { st with
              toolCalls := st.toolCalls ++ [(getProp ev "tool", getProp ev "arguments")],
              notifications := st.notifications ++
                [.tool_call (getProp ev "tool") (getProp ev "arguments")] }
        else if t = "tool_result" then
          { st with notifications := st.notifications ++ [.tool_result (getProp ev "result")] }
        else if t = "final" then
          { st with notifications := st.notifications ++ [.final (getProp ev "content") st.toolCalls] }
        else if t = "error" then
          { st with notifications := st.notifications ++ [.error (getProp ev "content")] }
        else st
      | _ => st

/-- `text.split('\n')` on decoded text: always returns at least one segment,
the last being the text after the final newline. -/
def splitNl : List Char → List (List Char)
  | [] => [[]]
  | c :: cs =>
    match splitNl cs with
    | [] => [[]]
    | l :: ls => if c = '\n' then [] :: l :: ls else (c :: l) :: ls

/-- One iteration of the `while (true)` read loop for a decoded chunk:
`receivedText += text; const lines = receivedText.split('\n');
receivedText = lines.pop() || '';` then the per-line loop over the complete
lines. -/
def processChunk (p : List Char → Option JVal) (st : ExchangeState) (chunk : List Char) :
    ExchangeState :=
  ((splitNl (st.buffer ++ chunk)).dropLast).foldl (handleLine p)
    { st with buffer := (splitNl (st.buffer ++ chunk)).getLastD [] }

/-- The whole read loop over the successive decoded chunks of the response
body (`TextDecoder` with `stream: true` is the external decoder; chunks are
its text outputs). -/
def processChunks (p : List Char → Option JVal) (st : ExchangeState)
    (chunks : List (List Char)) : ExchangeState :=
  chunks.foldl (processChunk p) st

/-- Character-at-a-time reference semantics for the buffering loop: a newline
finishes the buffered line and hands it to the line handler, any other
character is appended to the buffer.  Used to prove chunk-boundary
invariance of `processChunk`. -/
def stepChar (p : List Char → Option JVal) (st : ExchangeState) (c : Char) : ExchangeState :=
  if c = '\n' then { handleLine p st st.buffer with buffer := [] }
  else { st with buffer := st.buffer ++ [c] }

/-- The `tool_call` records carried by a notification trace, in order: this
is what the accumulated `toolCalls` list mirrors. -/
def toolPairs : List Notification → List (Option JVal × Option JVal)
  | [] => []
  | Notification.tool_call t a :: ns => (t, a) :: toolPairs ns
  | _ :: ns => toolPairs ns

/-- Consistency of an exchange state: the accumulator equals the `tool_call`
records of the trace so far, and every `final` notification already emitted
carries exactly the `tool_call` records that preceded it. -/
def GoodTrace (st : ExchangeState) : Prop :=
  st.toolCalls = toolPairs st.notifications ∧
  ∀ pre c tcs post, st.notifications = pre ++ Notification.final c tcs :: post →
    tcs = toolPairs pre

/-! ## Client-level model

`fetch` outcomes are external: a request either resolves with an OK status,
resolves with a non-OK status, or rejects (network error / thrown
exception).  Session-identifier randomness is out of scope per the spec, so
`_generateSessionId` is modelled as drawing the next value from a fresh-id
counter (`nextSession`), which faithfully captures "freshly generated".
The `readers` list records background stream consumers that have been
started by `sendMessage` and whose streams have not yet finished; the
`response.body.getReader()` handle of a new exchange is appended there. -/

inductive FetchOutcome where
  | ok
  | httpError
  | reject
deriving DecidableEq

/-- A JavaScript function return value as observed by callers: `undefined`
(from a bare `return;`) or a boolean. -/
inductive JSRet where
  | undef
  | bool (b : Bool)
deriving DecidableEq

/-- JavaScript truthiness of the modelled return values: `undefined` and
`false` are falsy. -/
def truthy : JSRet → Bool
  | .undef => false
  | .bool b => b

/-- The fields of `MCPIntegration` (plus the modelling counters for fresh
session ids and reader handles). -/
structure ClientState where
  sessionId : Nat
  nextSession : Nat
  connected : Bool
  eventSource : Option Nat
  readers : List Nat
  nextReader : Nat
deriving DecidableEq

/-- The constructor: a first generated session id, `connected = false`,
`eventSource = null`, no readers yet. -/
def initClient : ClientState :=
  { sessionId := 0, nextSession := 1, connected := false, eventSource := none,
    readers := [], nextReader := 0 }

/-- The client immediately after a successful first `connect()`: the state
used as a concrete test fixture. -/
def connClient : ClientState :=
  { sessionId := 0, nextSession := 1, connected := true, eventSource := none,
    readers := [], nextReader := 0 }

/-- `connect()`: `if (this.connected) return;` (a bare return, i.e.
`undefined`); otherwise the health check — OK sets `connected = true` and
returns `true`, a non-OK response or a thrown fetch error returns `false`
with the state unchanged. -/
def mcpConnect (st : ClientState) (health : FetchOutcome) : ClientState × JSRet :=
  if st.connected then (st, .undef)
  else
    match health with
    | .ok => ({ st with connected := true }, .bool true)
    | .httpError => (st, .bool false)
    | .reject => (st, .bool false)

/-- Everything `sendMessage` produces: the final client state, the value the
returned promise resolves with, the notifications the exchange delivers,
how many `connect()` attempts were made, whether the chat POST was issued,
and whether the `this.eventSource.close()` branch ran. -/
structure SendResult where
  state : ClientState
  ret : JSRet
  notifications : List Notification
  connectAttempts : Nat
  chatRequested : Bool
  closedEventSource : Bool
deriving DecidableEq

/-- `sendMessage(message)` with the external outcomes as parameters: if not
connected, one implicit `connect()` whose failure aborts with a bare
`return;`.  The try block closes `this.eventSource` if it is non-null
(without storing anything new in it), issues the chat POST (a non-OK status
throws, and the catch emits one `error` notification and returns `false`),
and on success spawns the background reader over the response body — the
new reader handle is never assigned to `this.eventSource` — returning
`true` while the stream (its decoded chunks given by `chunks`, parsed with
`p`) is consumed in the background. -/
def sendMessage (st : ClientState) (health chat : FetchOutcome)
    (p : List Char → Option JVal) (chunks : List (List Char)) : SendResult :=
  if st.connected then
    sendConnected st 0 chat p chunks
  else
    match mcpConnect st health with
    | (st1, r) =>
      if truthy r then
        sendConnected st1 1 chat p chunks
      else
        { state := st1, ret := .undef, notifications := [], connectAttempts := 1,
          chatRequested := false, closedEventSource := false }
where
  /-- The body of the `try` block once connected (`attempts` records how many
  implicit `connect()` calls were made). -/
  sendConnected (st1 : ClientState) (attempts : Nat) (chat : FetchOutcome)
      (p : List Char → Option JVal) (chunks : List (List Char)) : SendResult :=
    let closedES := st1.eventSource.isSome
    let st2 :=
      match st1.eventSource with
      | some h => { st1 with readers := st1.readers.filter (· ≠ h) }
      | none => st1
    match chat with
    | .ok =>
      { state := { st2 with
                     readers := st2.readers ++ [st2.nextReader],
                     nextReader := st2.nextReader + 1 },
        ret := .bool true,
        notifications := (processChunks p initExchange chunks).notifications,
        connectAttempts := attempts, chatRequested := true, closedEventSource := closedES }
    | _ =>
      { state := st2, ret := .bool false,
        notifications := [.error (some (.str "Failed to send message"))],
        connectAttempts := attempts, chatRequested := true, closedEventSource := closedES }

/-- `endSession()`: `if (!this.connected) return;`; otherwise close and null
`this.eventSource` if set, `await` the DELETE — if that rejects, control
jumps to the catch (log only) and the reset lines are skipped — and
otherwise regenerate the session id and set `connected = false`. -/
def endSession (st : ClientState) (del : FetchOutcome) : ClientState :=
  if st.connected then
    match st.eventSource with
    | some h =>
      endAfterClose { st with eventSource := none, readers := st.readers.filter (· ≠ h) } del
    | none => endAfterClose st del
  else st
where
  /-- After the event-source close step: the DELETE and, unless it throws,
  the session reset. -/
  endAfterClose (st1 : ClientState) (del : FetchOutcome) : ClientState :=
    match del with
    | .reject => st1
    | _ => { st1 with
               sessionId := st1.nextSession,
               nextSession := st1.nextSession + 1,
               connected := false }

/-! ## Observer registration and dispatch -/

/-- A JavaScript value passed to `onMessage`: either a function (identified
by an id) or any non-function value. -/
inductive CallbackVal where
  | func (id : Nat)
  | nonFunc (tag : Nat)
deriving DecidableEq

/-- `typeof callback === 'function'`. -/
def isFunction : CallbackVal → Bool
  | .func _ => true
  | .nonFunc _ => false

/-- `onMessage(callback)`: push onto `messageCallbacks` only when the
argument is a function; otherwise do nothing. -/
def onMessage (cbs : List CallbackVal) (cb : CallbackVal) : List CallbackVal :=
  if isFunction cb then cbs ++ [cb] else cbs

/-- `_notifyCallbacks(data)`: the `for (const callback of this.messageCallbacks)`
loop, recorded as the ordered trace of invocations `(callback, data)`. -/
def notifyCalls : List CallbackVal → Notification → List (CallbackVal × Notification)
  | [], _ => []
  | c :: cs, d => (c, d) :: notifyCalls cs d

/-- A concrete stand-in for the external `JSON.parse` primitive (which is a
browser builtin, outside this repository), used to instantiate the parser
parameter in witnesses: a few one-character lines decode to fixed event
records, everything else is a parse failure. -/
def sampleParse : List Char → Option JVal
  | ['a'] => some (jobj [("type", .str "content"), ("content", .str "Hi")])
  | ['t'] => some (jobj [("type", .str "tool_call"), ("tool", .str "search"),
      ("arguments", .str "x")])
  | ['r'] => some (jobj [("type", .str "tool_result"), ("result", .str "ok")])
  | ['f'] => some (jobj [("type", .str "final"), ("content", .str "done")])
  | ['e'] => some (jobj [("type", .str "error"), ("content", .str "bad")])
  | ['u'] => some (jobj [("type", .str "mystery")])
  | ['n'] => some (.num 5)
  | _ => none

/-! ## Lemmas about line splitting and the read loop -/

lemma splitNl_ne_nil (l : List Char) : splitNl l ≠ [] := by
  cases l with
  | nil => simp [splitNl]
  | cons c cs =>
    rw [splitNl]
    cases h : splitNl cs with
    | nil => simp
    | cons a as => by_cases hc : c = '\n' <;> simp [hc]

lemma splitNl_of_not_mem (l : List Char) (h : '\n' ∉ l) : splitNl l = [l] := by
  induction l with
  | nil => rfl
  | cons c cs ih =>
    have hc : ¬ c = '\n' := fun hc => h (hc ▸ List.mem_cons_self c cs)
    have hcs : '\n' ∉ cs := fun hm => h (List.mem_cons_of_mem c hm)
    rw [splitNl, ih hcs]
    simp [hc]

lemma splitNl_append_newline (buf rest : List Char) (h : '\n' ∉ buf) :
    splitNl (buf ++ '\n' :: rest) = buf :: splitNl rest := by
  induction buf with
  | nil =>
    rw [List.nil_append, splitNl]
    cases hq : splitNl rest with
    | nil => exact absurd hq (splitNl_ne_nil rest)
    | cons a as => simp
  | cons c cs ih =>
    have hc : ¬ c = '\n' := fun hc => h (hc ▸ List.mem_cons_self c cs)
    have hcs : '\n' ∉ cs := fun hm => h (List.mem_cons_of_mem c hm)
    rw [List.cons_append, splitNl, ih hcs]
    simp [hc]

lemma handleLine_buffer (p : List Char → Option JVal) (st : ExchangeState) (l : List Char) :
    (handleLine p st l).buffer = st.buffer := by
  unfold handleLine
  repeat' split
  all_goals rfl

lemma handleLine_setBuffer (p : List Char → Option JVal) (st : ExchangeState)
    (b l : List Char) :
    handleLine p { st with buffer := b } l = { handleLine p st l with buffer := b } := by
  unfold handleLine
  repeat' split
  all_goals rfl

lemma noNl_stepChar (p : List Char → Option JVal) (st : ExchangeState) (c : Char)
    (h : '\n' ∉ st.buffer) : '\n' ∉ (stepChar p st c).buffer := by
  unfold stepChar
  by_cases hc : c = '\n'
  · rw [if_pos hc]
    simp
  · rw [if_neg hc]
    intro hmem
    rcases List.mem_append.mp hmem with h1 | h1
    · exact h h1
    · exact hc (List.mem_singleton.mp h1).symm

lemma noNl_foldl_stepChar (p : List Char → Option JVal) (l : List Char) :
    ∀ st : ExchangeState, '\n' ∉ st.buffer →
      '\n' ∉ (List.foldl (stepChar p) st l).buffer := by
  induction l with
  | nil => intro st h; exact h
  | cons c cs ih => intro st h; exact ih _ (noNl_stepChar p st c h)

lemma handleLine_mk (p : List Char → Option JVal) (l b b' : List Char)
    (tc : List (Option JVal × Option JVal)) (ns : List Notification) :
    handleLine p ⟨b', tc, ns⟩ l = { handleLine p ⟨b, tc, ns⟩ l with buffer := b' } := by
  unfold handleLine
  repeat' split
  all_goals rfl

lemma processChunk_newline (p : List Char → Option JVal) (st : ExchangeState)
    (cs : List Char) (h : '\n' ∉ st.buffer) :
    processChunk p st ('\n' :: cs) =
      processChunk p { handleLine p st st.buffer with buffer := [] } cs := by
  obtain ⟨b, tc, ns⟩ := st
  simp only [processChunk, List.nil_append]
  rw [splitNl_append_newline b cs h]
  cases hq : splitNl cs with
  | nil => exact absurd hq (splitNl_ne_nil cs)
  | cons a as =>
    simp only [List.dropLast_cons₂, List.getLastD_cons, List.foldl_cons]
    rw [handleLine_mk p b b (as.getLastD a) tc ns]

lemma processChunk_eq_foldl (p : List Char → Option JVal) (chunk : List Char) :
    ∀ st : ExchangeState, '\n' ∉ st.buffer →
      processChunk p st chunk = List.foldl (stepChar p) st chunk := by
  induction chunk with
  | nil =>
    intro st h
    rw [List.foldl_nil]
    unfold processChunk
    rw [List.append_nil, splitNl_of_not_mem st.buffer h]
    rfl
  | cons c cs ih =>
    intro st h
    by_cases hc : c = '\n'
    · subst hc
      rw [List.foldl_cons]
      have hstep : stepChar p st '\n' = { handleLine p st st.buffer with buffer := [] } := by
        unfold stepChar; rw [if_pos rfl]
      rw [hstep, ← ih _ (by simp)]
      exact processChunk_newline p st cs h
    · rw [List.foldl_cons]
      have hstep : stepChar p st c = { st with buffer := st.buffer ++ [c] } := by
        unfold stepChar; rw [if_neg hc]
      have hb : '\n' ∉ st.buffer ++ [c] := by
        intro hmem
        rcases List.mem_append.mp hmem with h1 | h1
        · exact h h1
        · exact hc (List.mem_singleton.mp h1).symm
      rw [hstep, ← ih { st with buffer := st.buffer ++ [c] } hb]
      unfold processChunk
      have hl : st.buffer ++ c :: cs = (st.buffer ++ [c]) ++ cs := by simp
      rw [hl]

lemma processChunks_eq_foldl (p : List Char → Option JVal) (chunks : List (List Char)) :
    ∀ st : ExchangeState, '\n' ∉ st.buffer →
      processChunks p st chunks = List.foldl (stepChar p) st chunks.flatten := by
  induction chunks with
  | nil => intro st _; rfl
  | cons c rest ih =>
    intro st h
    have h1 : processChunk p st c = List.foldl (stepChar p) st c :=
      processChunk_eq_foldl p c st h
    have h2 : '\n' ∉ (processChunk p st c).buffer := by
      rw [h1]; exact noNl_foldl_stepChar p c st h
    calc List.foldl (processChunk p) st (c :: rest)
        = processChunks p (processChunk p st c) rest := by
          rw [processChunks, List.foldl_cons]
      _ = List.foldl (stepChar p) (processChunk p st c) rest.flatten := ih _ h2
      _ = List.foldl (stepChar p) (List.foldl (stepChar p) st c) rest.flatten := by rw [h1]
      _ = List.foldl (stepChar p) st (c ++ rest.flatten) := (List.foldl_append _ _ _ _).symm
      _ = List.foldl (stepChar p) st (List.flatten (c :: rest)) := by
          rw [List.flatten_cons]

/-! ## The tool-call accumulator invariant -/

lemma toolPairs_append (xs ys : List Notification) :
    toolPairs (xs ++ ys) = toolPairs xs ++ toolPairs ys := by
  induction xs with
  | nil => rfl
  | cons n ns ih => cases n <;> simp [toolPairs, ih]

lemma toolPairs_eq_nil (ns : List Notification)
    (h : ∀ t a, Notification.tool_call t a ∉ ns) : toolPairs ns = [] := by
  induction ns with
  | nil => rfl
  | cons n ns ih =>
    have hns : ∀ t a, Notification.tool_call t a ∉ ns :=
      fun t a hm => h t a (List.mem_cons_of_mem _ hm)
    cases n with
    | tool_call t a => exact absurd (List.mem_cons_self _ _) (h t a)
    | update c => exact ih hns
    | tool_result r => exact ih hns
    | final c tcs => exact ih hns
    | error e => exact ih hns

lemma concat_eq_append_cons {α : Type} (ns : List α) (n : α) (pre post : List α) (x : α)
    (h : ns ++ [n] = pre ++ x :: post) :
    (pre = ns ∧ x = n ∧ post = []) ∨
      ∃ post', post = post' ++ [n] ∧ ns = pre ++ x :: post' := by
  rcases List.eq_nil_or_concat post with rfl | ⟨q, y, rfl⟩
  · obtain ⟨h1, h2⟩ := List.append_inj' h rfl
    left
    refine ⟨h1.symm, ?_, rfl⟩
    injection h2 with hx _
    exact hx.symm
  · right
    have h' : ns ++ [n] = (pre ++ x :: q) ++ [y] := by rw [h]; simp
    obtain ⟨h1, h2⟩ := List.append_inj' h' rfl
    injection h2 with hy _
    exact ⟨q, by rw [hy, List.concat_eq_append], h1⟩

lemma goodTrace_mk_buffer (st : ExchangeState) (b : List Char) :
    GoodTrace { st with buffer := b } ↔ GoodTrace st := Iff.rfl

lemma goodTrace_push_plain (st : ExchangeState) (n : Notification) (h : GoodTrace st)
    (htp : toolPairs [n] = []) (hnf : ∀ c tcs, n ≠ Notification.final c tcs) :
    GoodTrace { st with notifications := st.notifications ++ [n] } := by
  obtain ⟨h1, h2⟩ := h
  constructor
  · show st.toolCalls = toolPairs (st.notifications ++ [n])
    rw [toolPairs_append, htp, List.append_nil, h1]
  · intro pre c tcs post heq
    rcases concat_eq_append_cons _ _ _ _ _ heq with ⟨_, hx, _⟩ | ⟨post', _, hns⟩
    · exact absurd hx.symm (hnf c tcs)
    · exact h2 pre c tcs post' hns

lemma goodTrace_push_tool (st : ExchangeState) (t a : Option JVal) (h : GoodTrace st) :
    GoodTrace { st with
                  toolCalls := st.toolCalls ++ [(t, a)],
                  notifications := st.notifications ++ [Notification.tool_call t a] } := by
  obtain ⟨h1, h2⟩ := h
  constructor
  · show st.toolCalls ++ [(t, a)]
        = toolPairs (st.notifications ++ [Notification.tool_call t a])
    rw [toolPairs_append, h1]
    rfl
  · intro pre c tcs post heq
    rcases concat_eq_append_cons _ _ _ _ _ heq with ⟨_, hx, _⟩ | ⟨post', _, hns⟩
    · exact Notification.noConfusion hx
    · exact h2 pre c tcs post' hns

lemma goodTrace_push_final (st : ExchangeState) (c : Option JVal) (h : GoodTrace st) :
    GoodTrace { st with
                  notifications := st.notifications
                    ++ [Notification.final c st.toolCalls] } := by
  obtain ⟨h1, h2⟩ := h
  constructor
  · show st.toolCalls
        = toolPairs (st.notifications ++ [Notification.final c st.toolCalls])
    rw [toolPairs_append, h1]
    simp [toolPairs]
  · intro pre c' tcs post heq
    rcases concat_eq_append_cons _ _ _ _ _ heq with ⟨hpre, hx, _⟩ | ⟨post', _, hns⟩
    · injection hx with hc htcs
      rw [htcs, h1, hpre]
    · exact h2 pre c' tcs post' hns

lemma goodTrace_handleLine (p : List Char → Option JVal) (st : ExchangeState)
    (l : List Char) (h : GoodTrace st) : GoodTrace (handleLine p st l) := by
  unfold handleLine
  repeat' split
  all_goals first
    | exact h
    | exact goodTrace_push_plain _ _ h rfl (fun c tcs hne => Notification.noConfusion hne)
    | exact goodTrace_push_tool _ _ _ h
    | exact goodTrace_push_final _ _ h

lemma goodTrace_foldl (p : List Char → Option JVal) (ls : List (List Char)) :
    ∀ st : ExchangeState, GoodTrace st → GoodTrace (List.foldl (handleLine p) st ls) := by
  induction ls with
  | nil => intro st h; exact h
  | cons l ls ih => intro st h; exact ih _ (goodTrace_handleLine p st l h)

lemma goodTrace_processChunk (p : List Char → Option JVal) (st : ExchangeState)
    (chunk : List Char) (h : GoodTrace st) : GoodTrace (processChunk p st chunk) := by
  unfold processChunk
  exact goodTrace_foldl p _ _ ((goodTrace_mk_buffer st _).mpr h)

lemma goodTrace_processChunks (p : List Char → Option JVal) (chunks : List (List Char)) :
    ∀ st : ExchangeState, GoodTrace st → GoodTrace (processChunks p st chunks) := by
  induction chunks with
  | nil => intro st h; exact h
  | cons c rest ih => intro st h; exact ih _ (goodTrace_processChunk p st c h)

lemma goodTrace_init : GoodTrace initExchange := by
  constructor
  · rfl
  · intro pre c tcs post h
    exact absurd (List.append_eq_nil.mp h.symm).2 (List.cons_ne_nil _ _)

lemma handleLine_toolCalls_take (p : List Char → Option JVal) (st : ExchangeState)
    (l : List Char) :
    ((handleLine p st l).toolCalls).take st.toolCalls.length = st.toolCalls := by
  unfold handleLine
  repeat' split
  all_goals first
    | exact List.take_length _
    | exact List.take_left _ _

/-! ## Claim theorems -/

/-- **C4.** Chunk-boundary invariance: for any partition of the byte stream
into chunks (including splits mid-line or mid-record), `processStream`
delivers the same notification sequence (indeed reaches the same exchange
state) as when the same text arrives as one contiguous chunk; moreover a
chunk ending in a partial line (no newline) is only buffered — appended to
`receivedText` — and never parsed early. -/
theorem chunk_boundary_invariance (p : List Char → Option JVal) (st : ExchangeState)
    (h : '\n' ∉ st.buffer) (chunks : List (List Char)) :
    processChunks p st chunks = processChunk p st chunks.flatten ∧
      ∀ c : List Char, '\n' ∉ c →
        processChunk p st c = { st with buffer := st.buffer ++ c } := by
  constructor
  · rw [processChunks_eq_foldl p chunks st h,
       processChunk_eq_foldl p chunks.flatten st h]
  · intro c hc
    have hbc : '\n' ∉ st.buffer ++ c := by
      intro hm
      rcases List.mem_append.mp hm with h1 | h1
      · exact h h1
      · exact hc h1
    unfold processChunk
    rw [splitNl_of_not_mem _ hbc]
    rfl

theorem chunk_boundary_invariance_witness :
    ('\n' ∉ initExchange.buffer) ∧
      processChunks sampleParse initExchange [['a'], ['\n', 't'], ['\n', 'f', '\n']]
        = processChunk sampleParse initExchange
            (List.flatten [['a'], ['\n', 't'], ['\n', 'f', '\n']]) :=
  ⟨by decide, (chunk_boundary_invariance sampleParse initExchange (by decide)
    [['a'], ['\n', 't'], ['\n', 'f', '\n']]).1⟩

/-- **C5.** In a single `sendMessage` exchange (stream processing starting
from the fresh per-exchange state), every `final` notification carries
exactly the `tool_call` records observed earlier in that exchange, in
order, and the empty list when none occurred. -/
theorem final_carries_exact_toolCalls (p : List Char → Option JVal)
    (chunks : List (List Char)) (pre : List Notification) (c : Option JVal)
    (tcs : List (Option JVal × Option JVal)) (post : List Notification)
    (h : (processChunks p initExchange chunks).notifications
          = pre ++ Notification.final c tcs :: post) :
    tcs = toolPairs pre ∧ ((∀ t a, Notification.tool_call t a ∉ pre) → tcs = []) := by
  have hg := goodTrace_processChunks p chunks initExchange goodTrace_init
  have h1 := hg.2 pre c tcs post h
  exact ⟨h1, fun hn => h1.trans (toolPairs_eq_nil pre hn)⟩

theorem final_carries_exact_toolCalls_witness :
    [(some (JVal.str "search"), some (JVal.str "x"))]
      = toolPairs [Notification.update (some (JVal.str "Hi")),
          Notification.tool_call (some (JVal.str "search")) (some (JVal.str "x"))] :=
  (final_carries_exact_toolCalls sampleParse [String.data "a\nt\nf\n"]
    [Notification.update (some (JVal.str "Hi")),
     Notification.tool_call (some (JVal.str "search")) (some (JVal.str "x"))]
    (some (JVal.str "done"))
    [(some (JVal.str "search"), some (JVal.str "x"))]
    [] (by decide)).1

/-- **C6.** A line that is not valid JSON (the parse yields `none`, i.e.
`JSON.parse` threw) is skipped — the state is unchanged by that line — and
processing continues: the fold over the remaining lines is exactly the fold
with the bad line removed, so all subsequent valid lines still produce
their notifications and the stream is not aborted. -/
theorem invalid_line_skipped (p : List Char → Option JVal) (st : ExchangeState)
    (xs ys : List (List Char)) (bad : List Char) (hbad : p bad = none) :
    handleLine p st bad = st ∧
      List.foldl (handleLine p) st (xs ++ bad :: ys)
        = List.foldl (handleLine p) st (xs ++ ys) := by
  have hskip : ∀ s : ExchangeState, handleLine p s bad = s := by
    intro s
    unfold handleLine
    split
    · rfl
    · rw [hbad]
  refine ⟨hskip st, ?_⟩
  rw [List.foldl_append, List.foldl_append, List.foldl_cons, hskip]

theorem invalid_line_skipped_witness :
    sampleParse ['z'] = none ∧
      List.foldl (handleLine sampleParse) initExchange ([['a']] ++ ['z'] :: [['f']])
        = List.foldl (handleLine sampleParse) initExchange ([['a']] ++ [['f']]) :=
  ⟨by decide,
   (invalid_line_skipped sampleParse initExchange [['a']] [['f']] ['z'] (by decide)).2⟩

/-- **C9.** The per-exchange accumulator is never cleared by a `final`
event: a later `final` notification carries all `tool_call` records since
the start of the exchange — the earlier `final`'s list extended by the
`tool_call` records in between — and no line handling ever drops the
accumulated prefix. -/
theorem later_final_extends_earlier (p : List Char → Option JVal)
    (chunks : List (List Char)) (pre mid post : List Notification)
    (c1 c2 : Option JVal) (t1 t2 : List (Option JVal × Option JVal))
    (h : (processChunks p initExchange chunks).notifications
          = pre ++ Notification.final c1 t1 :: (mid ++ Notification.final c2 t2 :: post)) :
    t2 = t1 ++ toolPairs mid ∧
      ∀ (st : ExchangeState) (l : List Char),
        ((handleLine p st l).toolCalls).take st.toolCalls.length = st.toolCalls := by
  have hg := goodTrace_processChunks p chunks initExchange goodTrace_init
  have h1 : t1 = toolPairs pre := hg.2 pre c1 t1 _ h
  have h' : (processChunks p initExchange chunks).notifications
      = (pre ++ Notification.final c1 t1 :: mid) ++ Notification.final c2 t2 :: post := by
    rw [h]; simp
  have h2 : t2 = toolPairs (pre ++ Notification.final c1 t1 :: mid) :=
    hg.2 _ c2 t2 post h'
  constructor
  · rw [h2, toolPairs_append, h1]
    rfl
  · intro st l
    exact handleLine_toolCalls_take p st l

theorem later_final_extends_earlier_witness :
    [(some (JVal.str "search"), some (JVal.str "x")),
     (some (JVal.str "search"), some (JVal.str "x"))]
      = [(some (JVal.str "search"), some (JVal.str "x"))]
        ++ toolPairs [Notification.tool_call (some (JVal.str "search"))
            (some (JVal.str "x"))] :=
  (later_final_extends_earlier sampleParse [String.data "t\nf\nt\nf\n"]
    [Notification.tool_call (some (JVal.str "search")) (some (JVal.str "x"))]
    [Notification.tool_call (some (JVal.str "search")) (some (JVal.str "x"))]
    []
    (some (JVal.str "done")) (some (JVal.str "done"))
    [(some (JVal.str "search"), some (JVal.str "x"))]
    [(some (JVal.str "search"), some (JVal.str "x")),
     (some (JVal.str "search"), some (JVal.str "x"))]
    (by decide)).1

lemma notifyCalls_append (cbs : List CallbackVal) (c : CallbackVal) (d : Notification) :
    notifyCalls (cbs ++ [c]) d = notifyCalls cbs d ++ [(c, d)] := by
  induction cbs with
  | nil => rfl
  | cons x xs ih => simp [notifyCalls, ih]

/-- **C8.** Dispatch invokes, for every notification, exactly the observers
accepted by `onMessage` (all registrations from the constructor's empty
list onward), each exactly once and in registration order. -/
theorem observers_invoked_in_order (args : List CallbackVal) (d : Notification) :
    notifyCalls (List.foldl onMessage [] args) d
      = (args.filter isFunction).map (fun c => (c, d)) := by
  suffices hgen : ∀ acc, notifyCalls (List.foldl onMessage acc args) d
      = notifyCalls acc d ++ (args.filter isFunction).map (fun c => (c, d)) by
    simpa [notifyCalls] using hgen []
  induction args with
  | nil => intro acc; simp
  | cons a as ih =>
    intro acc
    rw [List.foldl_cons]
    cases hf : isFunction a with
    | false =>
      have hstep : onMessage acc a = acc := by simp [onMessage, hf]
      rw [hstep, ih acc]
      simp [List.filter_cons, hf]
    | true =>
      have hstep : onMessage acc a = acc ++ [a] := by simp [onMessage, hf]
      rw [hstep, ih (acc ++ [a]), notifyCalls_append]
      simp [List.filter_cons, hf]

lemma mem_foldl_onMessage (args : List CallbackVal) :
    ∀ acc c, c ∈ List.foldl onMessage acc args → c ∈ acc ∨ isFunction c = true := by
  induction args with
  | nil => intro acc c h; exact Or.inl h
  | cons a as ih =>
    intro acc c h
    rw [List.foldl_cons] at h
    rcases ih (onMessage acc a) c h with hm | ht
    · cases hf : isFunction a with
      | false =>
        rw [show onMessage acc a = acc from by simp [onMessage, hf]] at hm
        exact Or.inl hm
      | true =>
        rw [show onMessage acc a = acc ++ [a] from by simp [onMessage, hf]] at hm
        rcases List.mem_append.mp hm with h1 | h1
        · exact Or.inl h1
        · right; rw [List.mem_singleton.mp h1]; exact hf
    · exact Or.inr ht

lemma mem_notifyCalls (cbs : List CallbackVal) (d : Notification)
    (pr : CallbackVal × Notification) (h : pr ∈ notifyCalls cbs d) : pr.1 ∈ cbs := by
  induction cbs with
  | nil => simp [notifyCalls] at h
  | cons c cs ih =>
    rw [notifyCalls] at h
    rcases List.mem_cons.mp h with h1 | h1
    · rw [h1]; exact List.mem_cons_self _ _
    · exact List.mem_cons_of_mem _ (ih h1)

/-- **C10.** `onMessage` silently ignores a non-function argument (the list
is unchanged and nothing is thrown, the function being total), every
element of any reachable callback list is a function, and dispatch never
invokes a non-function. -/
theorem onMessage_ignores_nonfunctions :
    (∀ (cbs : List CallbackVal) (cb : CallbackVal), isFunction cb = false →
        onMessage cbs cb = cbs) ∧
    (∀ (args : List CallbackVal) (c : CallbackVal),
        c ∈ List.foldl onMessage [] args → isFunction c = true) ∧
    (∀ (args : List CallbackVal) (d : Notification) (pr : CallbackVal × Notification),
        pr ∈ notifyCalls (List.foldl onMessage [] args) d → isFunction pr.1 = true) := by
  refine ⟨?_, ?_, ?_⟩
  · intro cbs cb h
    simp [onMessage, h]
  · intro args c h
    rcases mem_foldl_onMessage args [] c h with hm | ht
    · exact absurd hm (List.not_mem_nil c)
    · exact ht
  · intro args d pr h
    rcases mem_foldl_onMessage args [] pr.1 (mem_notifyCalls _ _ _ h) with hm | ht
    · exact absurd hm (List.not_mem_nil _)
    · exact ht

theorem onMessage_ignores_nonfunctions_witness :
    onMessage [] (CallbackVal.nonFunc 0) = [] ∧
      isFunction (CallbackVal.func 5) = true :=
  ⟨onMessage_ignores_nonfunctions.1 [] (CallbackVal.nonFunc 0) (by decide),
   onMessage_ignores_nonfunctions.2.1 [CallbackVal.func 5] (CallbackVal.func 5)
     (by decide)⟩

/-! ## Client lifecycle lemmas -/

lemma sendConnected_eventSource (st1 : ClientState) (att : Nat) (chat : FetchOutcome)
    (p : List Char → Option JVal) (ch : List (List Char)) :
    (sendMessage.sendConnected st1 att chat p ch).state.eventSource = st1.eventSource := by
  unfold sendMessage.sendConnected
  cases chat <;> cases hes : st1.eventSource <;> simp [hes]

lemma sendConnected_connectAttempts (st1 : ClientState) (att : Nat) (chat : FetchOutcome)
    (p : List Char → Option JVal) (ch : List (List Char)) :
    (sendMessage.sendConnected st1 att chat p ch).connectAttempts = att := by
  unfold sendMessage.sendConnected
  cases chat <;> cases hes : st1.eventSource <;> simp [hes]

/-- **C2 (corrected) counterexample.** On an already-connected client,
`connect()` resolves with `undefined` — a falsy value, not the truthy
`true` the claim asserts. -/
theorem connect_when_connected_returns_undefined :
    (mcpConnect connClient FetchOutcome.ok).2 = JSRet.undef ∧
    truthy (mcpConnect connClient FetchOutcome.ok).2 = false := by
  decide

/-- **C2 (amended).** On an already-connected client, `connect()` performs
no liveness check (the state is untouched, whatever the health endpoint
would have answered) and returns immediately — but with `undefined`
(falsy), not `true`. -/
theorem connect_idempotent_no_check (st : ClientState) (health : FetchOutcome)
    (hc : st.connected = true) :
    mcpConnect st health = (st, JSRet.undef) := by
  unfold mcpConnect
  simp [hc]

theorem connect_idempotent_no_check_witness :
    mcpConnect connClient FetchOutcome.reject = (connClient, JSRet.undef) :=
  connect_idempotent_no_check connClient FetchOutcome.reject rfl

/-- **C1 (code bug).** `this.eventSource` is never assigned after the
constructor, so the "close any existing event source" branch of
`sendMessage` never fires: after two successful `sendMessage` calls while
the first response stream is still open, both background readers (handles
`0` and `1`) remain active and nothing was closed; in general `sendMessage`
leaves `eventSource` exactly as it found it. -/
theorem streams_not_superseded :
    (sendMessage (sendMessage initClient FetchOutcome.ok FetchOutcome.ok sampleParse []).state
        FetchOutcome.ok FetchOutcome.ok sampleParse []).state.readers = [0, 1] ∧
    (sendMessage initClient FetchOutcome.ok FetchOutcome.ok
        sampleParse []).closedEventSource = false ∧
    (sendMessage (sendMessage initClient FetchOutcome.ok FetchOutcome.ok sampleParse []).state
        FetchOutcome.ok FetchOutcome.ok sampleParse []).closedEventSource = false ∧
    ∀ (st : ClientState) (health chat : FetchOutcome) (p : List Char → Option JVal)
      (ch : List (List Char)),
      (sendMessage st health chat p ch).state.eventSource = st.eventSource := by
  refine ⟨by decide, by decide, by decide, ?_⟩
  intro st health chat p ch
  unfold sendMessage
  by_cases hc : st.connected
  · rw [if_pos hc]
    exact sendConnected_eventSource st 0 chat p ch
  · rw [if_neg hc]
    cases health <;>
      simp [mcpConnect, hc, truthy, sendConnected_eventSource]

/-- **C7.** A `sendMessage` call made while disconnected performs exactly
one implicit `connect()` attempt; when that attempt fails (the health check
did not resolve OK), `sendMessage` emits no notification, never issues the
chat request, and resolves with `undefined` — a falsy value. -/
theorem sendMessage_disconnected_connects_once (st : ClientState)
    (health chat : FetchOutcome) (p : List Char → Option JVal)
    (chunks : List (List Char)) (hdis : st.connected = false) :
    (sendMessage st health chat p chunks).connectAttempts = 1 ∧
    (health ≠ FetchOutcome.ok →
      (sendMessage st health chat p chunks).notifications = [] ∧
      (sendMessage st health chat p chunks).chatRequested = false ∧
      (sendMessage st health chat p chunks).ret = JSRet.undef ∧
      truthy (sendMessage st health chat p chunks).ret = false) := by
  unfold sendMessage
  rw [if_neg (by rw [hdis]; exact Bool.false_ne_true)]
  cases health with
  | ok =>
    refine ⟨?_, fun hne => absurd rfl hne⟩
    simp [mcpConnect, hdis, truthy, sendConnected_connectAttempts]
  | httpError =>
    refine ⟨?_, fun _ => ?_⟩ <;> simp [mcpConnect, hdis, truthy]
  | reject =>
    refine ⟨?_, fun _ => ?_⟩ <;> simp [mcpConnect, hdis, truthy]

theorem sendMessage_disconnected_connects_once_witness :
    (sendMessage initClient FetchOutcome.reject FetchOutcome.ok
        sampleParse []).connectAttempts = 1 ∧
    (sendMessage initClient FetchOutcome.reject FetchOutcome.ok
        sampleParse []).ret = JSRet.undef :=
  ⟨(sendMessage_disconnected_connects_once initClient FetchOutcome.reject FetchOutcome.ok
      sampleParse [] rfl).1,
   ((sendMessage_disconnected_connects_once initClient FetchOutcome.reject FetchOutcome.ok
      sampleParse [] rfl).2 (by decide)).2.2.1⟩

/-- **C3 (corrected) counterexample.** On a connected client whose DELETE
termination request rejects, `endSession` leaves the session identifier
unchanged and the state still connected: the reset lines sit inside the
`try` block and are skipped when the `await fetch` throws. -/
theorem endSession_reject_keeps_session :
    (endSession connClient FetchOutcome.reject).sessionId = connClient.sessionId ∧
    (endSession connClient FetchOutcome.reject).connected = true := by
  decide

/-- **C3 (amended).** On a connected client, whenever the DELETE
termination request resolves (an OK or even a non-OK HTTP response, which
`fetch` does not turn into an exception), `endSession` ends with a freshly
generated session identifier different from the one held before and with
the connection state reset to disconnected; only a rejected request (a
thrown error, which is logged) skips the reset. -/
theorem endSession_resolved_rotates (st : ClientState) (del : FetchOutcome)
    (hc : st.connected = true) (hdel : del ≠ FetchOutcome.reject)
    (hid : st.sessionId < st.nextSession) :
    (endSession st del).sessionId ≠ st.sessionId ∧
    (endSession st del).connected = false := by
  unfold endSession
  rw [if_pos hc]
  have hne : st.nextSession ≠ st.sessionId := (Nat.ne_of_lt hid).symm
  cases del with
  | reject => exact absurd rfl hdel
  | ok => cases hes : st.eventSource <;> simp [endSession.endAfterClose, hes, hne]
  | httpError => cases hes : st.eventSource <;> simp [endSession.endAfterClose, hes, hne]

theorem endSession_resolved_rotates_witness :
    ((endSession connClient FetchOutcome.ok).sessionId ≠ connClient.sessionId) ∧
    (endSession connClient FetchOutcome.ok).connected = false :=
  endSession_resolved_rotates connClient FetchOutcome.ok rfl (by decide) (by decide)

end MCP
